import Mathlib

/-!
# Verification of the LudyEnglish vocabulary trainer core

Shallow embedding of the session/trainer engine of the LudyEnglish app:
the random utilities (`shuffle`, `pickN`), the entry normalizer
(`normalizeRow`), the QCM distractor generator (`qcmOptions`), and the
session state machine (`nextCardNow`, `advanceCard`, `jumpTo`, resets
and imports, the QCM answered-lock).  JavaScript's `Math.random()` is
modelled by an arbitrary stream `ρ : Nat → Nat` of draws, reduced
modulo the live bound, so theorems quantify over every possible
random outcome.
-/

namespace LudyEnglish

/-! ## Data model -/

/-- One vocabulary entry (`type Vocab = { EN: string; FR: string; EG?: string }`);
a missing `EG` is represented by the empty string, exactly as `normalizeRow`
produces it. -/
structure Vocab where
  EN : String
  FR : String
  EG : String
deriving DecidableEq, Repr

/-- The three quiz modes. -/
inductive Mode where
  | flashcards
  | qcm
  | writing
deriving DecidableEq, Repr

/-- Translation direction (`"FR→EN" | "EN→FR"`). -/
inductive Direction where
  | frEn
  | enFr
deriving DecidableEq, Repr

/-- `score` state: `{ good, total }`. -/
structure Score where
  good : Nat
  total : Nat
deriving DecidableEq, Repr

/-- The prompt-side target field selected by the direction
(`direction === "FR→EN" ? v.EN : v.FR`). -/
def targetStr (v : Vocab) (d : Direction) : String :=
  match d with
  | .frEn => v.EN
  | .enFr => v.FR

/-! ## Random utilities (`shuffle`, `pickN`) -/

/-- One step of the in-place Fisher–Yates loop:
`[b[i], b[j]] = [b[j], b[i]]`.  Out-of-range indices leave the list
unchanged (never reached by the callers). -/
def swapAt (l : List α) (i j : Nat) : List α :=
  match l.get? i, l.get? j with
  | some a, some b => (l.set i b).set j a
  | _, _ => l

/-- The Fisher–Yates loop `for (let i = fuel; i > 0; i--) swap(i, ρ i % (i+1))`,
counting the loop variable down. -/
def fyAux (ρ : Nat → Nat) : Nat → List α → List α
  | 0, l => l
  | i + 1, l => fyAux ρ i (swapAt l (i + 1) (ρ (i + 1) % (i + 2)))

/-- `shuffle<T>(a: T[]): T[]` — Fisher–Yates over a copy `b = [...a]`,
looping `i` from `a.length - 1` down to `1`. -/
def shuffle (ρ : Nat → Nat) (a : List α) : List α :=
  fyAux ρ (a.length - 1) a

/-- `pickN<T>(arr, n, avoidIndex?)`: the index list `[0, …, arr.length-1]`
filtered by `i !== avoidIndex`, Fisher–Yates-shuffled, then
`slice(0, Math.min(n, idxs.length))` mapped through `arr`. -/
def pickN [Inhabited α] (ρ : Nat → Nat) (arr : List α) (n : Nat)
    (avoid : Option Int) : List α :=
  let idxs := (List.range arr.length).filter (fun (i : Nat) => avoid ≠ some (i : Int))
  let sh := fyAux ρ (idxs.length - 1) idxs
  (sh.take (min n sh.length)).map (fun i => arr.getD i default)

/-- The index list actually drawn by `pickN` (the value of
`idxs.slice(0, Math.min(n, idxs.length))` after the shuffle), so that
`pickN` is by construction the image of this index list. -/
def pickIdxs (ρ : Nat → Nat) (len n : Nat) (avoid : Option Int) : List Nat :=
  let idxs := (List.range len).filter (fun (i : Nat) => avoid ≠ some (i : Int))
  let sh := fyAux ρ (idxs.length - 1) idxs
  sh.take (min n sh.length)

/-- Whether `avoid` names a valid index into a list of length `len`
(the condition under which the filter in `pickN` removes one index). -/
def validIdx (avoid : Option Int) (len : Nat) : Bool :=
  match avoid with
  | none => false
  | some e => 0 ≤ e && e < (len : Int)

/-- `Array.prototype.indexOf` semantics: first occurrence, `-1` when absent. -/
def jsIndexOf (l : List String) (x : String) : Int :=
  if x ∈ l then (l.indexOf x : Int) else -1

/-! ## JavaScript string operations

`String.prototype.toUpperCase` / `toLowerCase` / `trim`, embedded as
character-list maps so that concrete instances evaluate in the kernel. -/

/-- `s.toUpperCase()`. -/
def jsToUpper (s : String) : String := ⟨s.data.map Char.toUpper⟩

/-- `s.toLowerCase()`. -/
def jsToLower (s : String) : String := ⟨s.data.map Char.toLower⟩

/-- `s.trim()`: strip leading and trailing whitespace. -/
def jsTrim (s : String) : String :=
  ⟨((s.data.dropWhile Char.isWhitespace).reverse.dropWhile Char.isWhitespace).reverse⟩

/-! ## Entry normalizer (`normalizeRow`) -/

/-- A raw tabular record, as produced by the CSV decoder with `header: true`:
an association list from header names to cell values, in insertion order,
with pairwise-distinct raw keys (a JS object). -/
abbrev RawRow := List (String × String)

/-- `acc[k] = v` on a JS object: overwrite in place when the key exists,
append otherwise. -/
def objSet (m : RawRow) (k v : String) : RawRow :=
  if m.any (fun kv => kv.1 == k) then
    m.map (fun kv => if kv.1 == k then (k, v) else kv)
  else
    m ++ [(k, v)]

/-- The `Object.keys(row).reduce` pass of `normalizeRow`:
`acc[k.trim().toUpperCase()] = row[k]`. -/
def normalizeKeys (row : RawRow) : RawRow :=
  row.foldl (fun acc kv => objSet acc (jsToUpper (jsTrim kv.1)) kv.2) []

/-- `(keys[k] || "")`: the value under `k`, defaulting to the empty string. -/
def lookupKey (m : RawRow) (k : String) : String :=
  ((m.find? (fun kv => kv.1 == k)).map Prod.snd).getD ""

/-- `normalizeRow(row): Vocab | null` — normalize header keys, extract and
trim `EN`/`FR`/`EG`, reject when both `EN` and `FR` end up empty. -/
def normalizeRow (row : RawRow) : Option Vocab :=
  let keys := normalizeKeys row
  let en := jsTrim (lookupKey keys "EN")
  let fr := jsTrim (lookupKey keys "FR")
  let eg := jsTrim (lookupKey keys "EG")
  if en = "" ∧ fr = "" then none else some ⟨en, fr, eg⟩

/-! ## Session state -/

/-- The mutable state of the trainer component.  `list` is the derived
working list (the `useMemo` of `shuffleOn ? shuffle(trainingRows) :
trainingRows`), stored in the state and recomputed exactly when its
dependencies change, mirroring the memoization. -/
structure AppState where
  rows : List Vocab
  trainingRows : List Vocab
  list : List Vocab
  wrongRows : List Vocab
  mode : Mode
  direction : Direction
  index : Nat
  showBack : Bool
  answer : String
  score : Score
  currentStreak : Nat
  bestStreak : Nat
  shuffleOn : Bool
  qcmAnswered : Bool
  selectedQcmOption : Option String
deriving DecidableEq, Repr

/-- `clamp(n, min, max) = Math.max(min, Math.min(max, n))`. -/
def clampNat (n lo hi : Nat) : Nat := max lo (min hi n)

/-- `const current = list[index]`. -/
def currentEntry (s : AppState) : Option Vocab := s.list.get? s.index

/-- The concatenated mistake-dedup key `` `${v.EN}__${v.FR}` ``. -/
def wkey (v : Vocab) : String := v.EN ++ "__" ++ v.FR

/-- `setWrongRows((wr) => wr.some((v) => key(v) === key(current)) ? wr : [...wr, current])`. -/
def insertWrong (wr : List Vocab) (cur : Vocab) : List Vocab :=
  if wr.any (fun v => wkey v == wkey cur) then wr else wr ++ [cur]

/-- The immediate (synchronous) effects of `nextCard(correct?)`: score,
streaks, mistake insertion, and — outside QCM mode — the immediate clearing
of the QCM answered-lock.  The `setTimeout` body is `advanceCard` below. -/
def nextCardNow (correct : Bool) (s : AppState) : AppState :=
  let ns := if correct then s.currentStreak + 1 else 0
  { s with
    score := ⟨s.score.good + (if correct then 1 else 0), s.score.total + 1⟩
    currentStreak := ns
    bestStreak := max s.bestStreak ns
    wrongRows :=
      if correct then s.wrongRows
      else
        match currentEntry s with
        | some cur => insertWrong s.wrongRows cur
        | none => s.wrongRows
    qcmAnswered := if s.mode ≠ Mode.qcm then false else s.qcmAnswered
    selectedQcmOption := if s.mode ≠ Mode.qcm then none else s.selectedQcmOption }

/-- The deferred (`setTimeout`) tail of `nextCard`: clear the reveal and the
typed answer, clear the QCM lock in QCM mode, and advance
`index` to `clamp(i + 1, 0, Math.max(list.length - 1, 0))`. -/
def advanceCard (s : AppState) : AppState :=
  { s with
    showBack := false
    answer := ""
    qcmAnswered := if s.mode = Mode.qcm then false else s.qcmAnswered
    selectedQcmOption := if s.mode = Mode.qcm then none else s.selectedQcmOption
    index := clampNat (s.index + 1) 0 (max (s.list.length - 1) 0) }

/-- `jumpTo(i)`: clamp, clear reveal/typed answer and the QCM lock. -/
def jumpTo (i : Nat) (s : AppState) : AppState :=
  { s with
    index := clampNat i 0 (max (s.list.length - 1) 0)
    showBack := false
    answer := ""
    qcmAnswered := false
    selectedQcmOption := none }

/-- `hardResetProgress()`. -/
def hardResetProgress (s : AppState) : AppState :=
  { s with
    index := 0
    showBack := false
    answer := ""
    score := ⟨0, 0⟩
    currentStreak := 0
    qcmAnswered := false
    selectedQcmOption := none }

/-- The derived working list: `shuffleOn ? shuffle(trainingRows) : trainingRows`. -/
def recomputeList (ρ : Nat → Nat) (sh : Bool) (tr : List Vocab) : List Vocab :=
  if sh then shuffle ρ tr else tr

/-- `setRows(parsed)` plus the `useEffect` on `rows`: replace all lists,
clear `wrongRows`, reset progress and the QCM lock. -/
def importRows (entries : List Vocab) (ρ : Nat → Nat) (s : AppState) : AppState :=
  hardResetProgress
    { s with
      rows := entries
      trainingRows := entries
      list := recomputeList ρ s.shuffleOn entries
      wrongRows := [] }

/-- The "Session complète" button: `setTrainingRows(rows); hardResetProgress()`. -/
def selectFull (ρ : Nat → Nat) (s : AppState) : AppState :=
  hardResetProgress
    { s with
      trainingRows := s.rows
      list := recomputeList ρ s.shuffleOn s.rows }

/-- The "Erreurs uniquement" button: guarded by `wrongRows.length > 0`. -/
def selectWrong (ρ : Nat → Nat) (s : AppState) : AppState :=
  if s.wrongRows.length > 0 then
    hardResetProgress
      { s with
        trainingRows := s.wrongRows
        list := recomputeList ρ s.shuffleOn s.wrongRows }
  else s

/-- The shuffle toggle button: flip the flag; the working-list memo recomputes. -/
def toggleShuffle (ρ : Nat → Nat) (s : AppState) : AppState :=
  { s with
    shuffleOn := !s.shuffleOn
    list := recomputeList ρ (!s.shuffleOn) s.trainingRows }

/-- `setMode(v); resetSession()`. -/
def setModeOp (m : Mode) (s : AppState) : AppState :=
  hardResetProgress { s with mode := m }

/-- `setDirection(v); resetSession()`. -/
def setDirectionOp (d : Direction) (s : AppState) : AppState :=
  hardResetProgress { s with direction := d }

/-- Typing into the writing-mode input: `setAnswer(t)`. -/
def setAnswerOp (t : String) (s : AppState) : AppState :=
  { s with answer := t }

/-- The flashcard reveal button: `setShowBack((s) => !s)`. -/
def toggleShowBack (s : AppState) : AppState :=
  { s with showBack := !s.showBack }

/-- `useUserData`'s remote merge: adopt the stored best streak only when it
is strictly larger than the local one. -/
def mergeRemoteBest (b : Nat) (s : AppState) : AppState :=
  if b > s.bestStreak then { s with bestStreak := b } else s

/-- `handleAnswerSubmit()` (writing mode): trim-lowercase both the typed
answer and the target, compare for equality, submit the verdict. -/
def handleAnswerSubmit (s : AppState) : AppState :=
  match currentEntry s with
  | none => s
  | some cur =>
    nextCardNow (jsToLower (jsTrim s.answer) == jsToLower (jsTrim (targetStr cur s.direction))) s

/-- The QCM option `onClick`: guarded by the answered-lock
(`if (qcmAnswered) return`), then select the option, set the lock and submit
`opt === (direction === "FR→EN" ? current.EN : current.FR)`.  The handler is
only rendered when a current entry exists. -/
def qcmClick (opt : String) (s : AppState) : AppState :=
  match currentEntry s with
  | none => s
  | some cur =>
    if s.qcmAnswered then s
    else
      nextCardNow (opt == targetStr cur s.direction)
        { s with selectedQcmOption := some opt, qcmAnswered := true }

/-! ## Derived presentation values -/

/-- `Math.round(num/den * 100)` for nonnegative rational `num/den`,
computed exactly over naturals: `⌊(100·num)/den + 1/2⌋`. -/
def roundPct (num den : Nat) : Nat := (200 * num + den) / (2 * den)

/-- `progress = list.length ? Math.round(((index+1)/list.length)*100) : 0`. -/
def progressPct (s : AppState) : Nat :=
  if s.list.length = 0 then 0 else roundPct (s.index + 1) s.list.length

/-- `accuracy = score.total ? Math.round((score.good/Math.max(score.total,1))*100) : 0`. -/
def accuracyPct (s : AppState) : Nat :=
  if s.score.total = 0 then 0 else roundPct s.score.good (max s.score.total 1)

/-- The QCM option set memo: empty without a current entry, otherwise the
correct target plus three index-excluded distractors, shuffled. -/
def qcmOptions (ρ₁ ρ₂ : Nat → Nat) (list : List Vocab) (index : Nat)
    (dir : Direction) : List String :=
  match list.get? index with
  | none => []
  | some cur =>
    if list.length = 0 then []
    else
      let correct := targetStr cur dir
      let pool := list.map (fun r => targetStr r dir)
      let distractors := pickN ρ₁ pool 3 (some (jsIndexOf pool correct))
      shuffle ρ₂ (correct :: distractors)

/-! ## Operations and reachability -/

/-- One user-visible operation on the session state.  Randomness consumed by
an operation is carried as a parameter of the operation itself. -/
inductive Op where
  | submit (c : Bool)
  | advance
  | jump (i : Nat)
  | reset
  | importOp (entries : List Vocab) (ρ : Nat → Nat)
  | fullScope (ρ : Nat → Nat)
  | wrongScope (ρ : Nat → Nat)
  | shuffleToggle (ρ : Nat → Nat)
  | modeSet (m : Mode)
  | directionSet (d : Direction)
  | answerSet (t : String)
  | reveal
  | writeSubmit
  | qcmChoose (opt : String)
  | remoteBest (b : Nat)

/-- Interpretation of one operation. -/
def applyOp (op : Op) (s : AppState) : AppState :=
  match op with
  | .submit c => nextCardNow c s
  | .advance => advanceCard s
  | .jump i => jumpTo i s
  | .reset => hardResetProgress s
  | .importOp entries ρ => importRows entries ρ s
  | .fullScope ρ => selectFull ρ s
  | .wrongScope ρ => selectWrong ρ s
  | .shuffleToggle ρ => toggleShuffle ρ s
  | .modeSet m => setModeOp m s
  | .directionSet d => setDirectionOp d s
  | .answerSet t => setAnswerOp t s
  | .reveal => toggleShowBack s
  | .writeSubmit => handleAnswerSubmit s
  | .qcmChoose opt => qcmClick opt s
  | .remoteBest b => mergeRemoteBest b s

/-- A whole interaction: fold the operations over the state. -/
def applyOps (ops : List Op) (s : AppState) : AppState :=
  ops.foldl (fun s op => applyOp op s) s

/-- The initial state on mount: empty lists, zero score and streak, the
persisted preferences (`mode`, `direction`, `shuffleOn`) and the persisted
best streak. -/
def mkInit (m : Mode) (d : Direction) (sh : Bool) (b : Nat) : AppState :=
  { rows := []
    trainingRows := []
    list := []
    wrongRows := []
    mode := m
    direction := d
    index := 0
    showBack := false
    answer := ""
    score := ⟨0, 0⟩
    currentStreak := 0
    bestStreak := b
    shuffleOn := sh
    qcmAnswered := false
    selectedQcmOption := none }

/-! ## Helper lemmas: Fisher–Yates permutes -/

theorem consSet_perm : ∀ (l : List α) (j : Nat) (b x : α),
    l.get? j = some b → List.Perm (b :: l.set j x) (x :: l) := by
  intro l
  induction l with
  | nil => intro j b x h; simp at h
  | cons y t ih =>
    intro j b x h
    cases j with
    | zero =>
      simp only [List.get?_cons_zero, Option.some.injEq] at h
      subst h
      simpa [List.set] using List.Perm.swap x y t
    | succ j =>
      simp only [List.get?_cons_succ] at h
      simp only [List.set]
      refine List.Perm.trans (List.Perm.swap y b (t.set j x)) ?_
      exact List.Perm.trans ((ih j b x h).cons y) (List.Perm.swap x y t)

theorem setTwo_perm : ∀ (l : List α) (i j : Nat) (a b : α),
    l.get? i = some a → l.get? j = some b → List.Perm ((l.set i b).set j a) l := by
  intro l
  induction l with
  | nil => intro i j a b h₁ _; simp at h₁
  | cons y t ih =>
    intro i j a b h₁ h₂
    cases i with
    | zero =>
      simp only [List.get?_cons_zero, Option.some.injEq] at h₁
      subst h₁
      cases j with
      | zero =>
        simp only [List.get?_cons_zero, Option.some.injEq] at h₂
        simp [List.set]
      | succ j =>
        simp only [List.get?_cons_succ] at h₂
        simp only [List.set]
        exact consSet_perm t j b y h₂
    | succ i =>
      simp only [List.get?_cons_succ] at h₁
      cases j with
      | zero =>
        simp only [List.get?_cons_zero, Option.some.injEq] at h₂
        subst h₂
        simp only [List.set]
        exact consSet_perm t i a y h₁
      | succ j =>
        simp only [List.get?_cons_succ] at h₂
        simp only [List.set]
        exact (ih i j a b h₁ h₂).cons y

theorem swapAt_perm (l : List α) (i j : Nat) : List.Perm (swapAt l i j) l := by
  unfold swapAt
  cases h₁ : l.get? i with
  | none => exact List.Perm.refl l
  | some a =>
    cases h₂ : l.get? j with
    | none => exact List.Perm.refl l
    | some b => exact setTwo_perm l i j a b h₁ h₂

theorem fyAux_perm (ρ : Nat → Nat) : ∀ (fuel : Nat) (l : List α), List.Perm (fyAux ρ fuel l) l := by
  intro fuel
  induction fuel with
  | zero => intro l; exact List.Perm.refl l
  | succ i ih =>
    intro l
    exact (ih _).trans (swapAt_perm l (i + 1) (ρ (i + 1) % (i + 2)))

theorem shuffle_perm (ρ : Nat → Nat) (l : List α) : List.Perm (shuffle ρ l) l :=
  fyAux_perm ρ (l.length - 1) l

/-- **C8.** `shuffle` returns a permutation of its input: same length and the
same multiset of elements, for every input (including the empty and singleton
lists) and every random stream; the input itself is only read, never written
(the model is a pure function of it). -/
theorem shuffle_is_permutation (ρ : Nat → Nat) (l : List α) :
    List.Perm (shuffle ρ l) l ∧ (shuffle ρ l).length = l.length ∧
      ∀ x, x ∈ shuffle ρ l ↔ x ∈ l := by
  refine ⟨shuffle_perm ρ l, (shuffle_perm ρ l).length_eq, fun x => (shuffle_perm ρ l).mem_iff⟩

/-! ## Helper lemmas: `pickN` -/

theorem filter_range_length (len : Nat) (avoid : Option Int) :
    ((List.range len).filter (fun (i : Nat) => avoid ≠ some (i : Int))).length
      = len - (if validIdx avoid len then 1 else 0) := by
  induction len with
  | zero => cases avoid <;> simp [validIdx]
  | succ n ih =>
    rw [List.range_succ, List.filter_append, List.length_append, ih]
    cases avoid with
    | none => simp [validIdx, List.filter]
    | some e =>
      have hsingle :
          (List.filter (fun (i : Nat) => (some e : Option Int) ≠ some (i : Int)) [n]).length
            = if e = (n : Int) then 0 else 1 := by
        by_cases he : e = (n : Int) <;> simp [List.filter, he]
      rw [hsingle]
      simp only [validIdx, Bool.and_eq_true, decide_eq_true_eq]
      split_ifs <;> omega

theorem pickN_length [Inhabited α] (ρ : Nat → Nat) (arr : List α) (n : Nat)
    (avoid : Option Int) :
    (pickN ρ arr n avoid).length
      = min n (arr.length - (if validIdx avoid arr.length then 1 else 0)) := by
  unfold pickN
  simp only [List.length_map, List.length_take]
  rw [(fyAux_perm ρ _ _).length_eq, filter_range_length]
  rw [min_assoc, min_self]

theorem pickN_mem [Inhabited α] (ρ : Nat → Nat) (arr : List α) (n : Nat)
    (avoid : Option Int) (x : α) (hx : x ∈ pickN ρ arr n avoid) :
    ∃ i, i < arr.length ∧ avoid ≠ some (i : Int) ∧ arr.getD i default = x := by
  unfold pickN at hx
  simp only [List.mem_map] at hx
  obtain ⟨i, hi, hmap⟩ := hx
  have h₁ : i ∈ fyAux ρ _ ((List.range arr.length).filter
      (fun (i : Nat) => avoid ≠ some (i : Int))) := List.mem_of_mem_take hi
  have h₂ := ((fyAux_perm ρ _ _).mem_iff).1 h₁
  simp only [List.mem_filter, List.mem_range, decide_eq_true_eq] at h₂
  exact ⟨i, h₂.1, h₂.2, hmap⟩

theorem pickIdxs_nodup (ρ : Nat → Nat) (len n : Nat) (avoid : Option Int) :
    (pickIdxs ρ len n avoid).Nodup := by
  unfold pickIdxs
  refine List.Nodup.sublist (List.take_sublist _ _) ?_
  exact ((fyAux_perm ρ _ _).nodup_iff).2 (List.Nodup.filter _ (List.nodup_range len))

theorem pickIdxs_mem (ρ : Nat → Nat) (len n : Nat) (avoid : Option Int)
    (i : Nat) (hi : i ∈ pickIdxs ρ len n avoid) :
    i < len ∧ avoid ≠ some (i : Int) := by
  unfold pickIdxs at hi
  have h₁ := List.mem_of_mem_take hi
  have h₂ := ((fyAux_perm ρ _ _).mem_iff).1 h₁
  simpa only [List.mem_filter, List.mem_range, decide_eq_true_eq] using h₂

/-- **C6.** `pickN` draws without replacement by index: the result length is
`min n (len − 1)` when the excluded index is valid and `min n len` otherwise;
every returned element comes from a non-excluded position, so the element at
the excluded index appears only if an equal value sits at another index; and
the result is exactly the image of a duplicate-free list of eligible indices
(`pickIdxs`), which is the without-replacement-by-index property.
(In the functional model the pool is only read, so non-mutation is inherent.) -/
theorem pickN_spec [Inhabited α] (ρ : Nat → Nat) (arr : List α) (n : Nat)
    (avoid : Option Int) :
    (pickN ρ arr n avoid).length
        = min n (arr.length - (if validIdx avoid arr.length then 1 else 0))
      ∧ (∀ x, x ∈ pickN ρ arr n avoid →
          ∃ i, i < arr.length ∧ avoid ≠ some (i : Int) ∧ arr.getD i default = x)
      ∧ (∀ e : Nat, avoid = some (e : Int) →
          arr.getD e default ∈ pickN ρ arr n avoid →
          ∃ i, i < arr.length ∧ i ≠ e ∧ arr.getD i default = arr.getD e default)
      ∧ (∃ is : List Nat, is.Nodup
          ∧ (∀ i ∈ is, i < arr.length ∧ avoid ≠ some (i : Int))
          ∧ pickN ρ arr n avoid = is.map (fun i => arr.getD i default)) := by
  refine ⟨pickN_length ρ arr n avoid, fun x => pickN_mem ρ arr n avoid x, ?_,
    pickIdxs ρ arr.length n avoid, pickIdxs_nodup ρ arr.length n avoid,
    fun i hi => pickIdxs_mem ρ arr.length n avoid i hi, rfl⟩
  intro e he hmem
  obtain ⟨i, hil, hine, hval⟩ := pickN_mem ρ arr n avoid _ hmem
  refine ⟨i, hil, ?_, hval⟩
  intro hie
  subst hie
  exact hine he

/-- Witness for C6: a four-element pool with excluded index `1`, and a pool
with a duplicate of the excluded value, both at the all-zeros random stream. -/
theorem pickN_spec_witness :
    (pickN (fun _ => 0) ["a", "b", "c", "d"] 3 (some 1)).length = min 3 (4 - 1)
      ∧ (∃ i : Nat, i < 4 ∧ (some 1 : Option Int) ≠ some (i : Int)
          ∧ (["a", "b", "c", "d"].getD i "") = "c")
      ∧ (∃ i, i < 3 ∧ i ≠ 0 ∧ (["a", "b", "a"].getD i "") = (["a", "b", "a"].getD 0 ""))
      ∧ (∃ is : List Nat, is.Nodup
          ∧ (∀ i ∈ is, i < 4 ∧ (some 1 : Option Int) ≠ some (i : Int))
          ∧ pickN (fun _ => 0) ["a", "b", "c", "d"] 3 (some 1)
              = is.map (fun i => ["a", "b", "c", "d"].getD i "")) := by
  refine ⟨?_, ?_, ?_, ?_⟩
  · exact (pickN_spec (fun _ => 0) ["a", "b", "c", "d"] 3 (some 1)).1
  · exact (pickN_spec (fun _ => 0) ["a", "b", "c", "d"] 3 (some 1)).2.1 "c" (by decide)
  · exact (pickN_spec (fun _ => 0) ["a", "b", "a"] 3 (some 0)).2.2.1 0 rfl (by decide)
  · exact (pickN_spec (fun _ => 0) ["a", "b", "c", "d"] 3 (some 1)).2.2.2

/-! ## QCM option set -/

/-- **C7.** With a current entry the QCM option set has between 1 and 4
members and contains the correct target string; without a current entry
(in particular on an empty working list) it is empty. -/
theorem qcmOptions_spec (ρ₁ ρ₂ : Nat → Nat) (list : List Vocab) (index : Nat)
    (dir : Direction) :
    (∀ cur, list.get? index = some cur →
        1 ≤ (qcmOptions ρ₁ ρ₂ list index dir).length
        ∧ (qcmOptions ρ₁ ρ₂ list index dir).length ≤ 4
        ∧ targetStr cur dir ∈ qcmOptions ρ₁ ρ₂ list index dir)
    ∧ (list.get? index = none → qcmOptions ρ₁ ρ₂ list index dir = []) := by
  constructor
  · intro cur hcur
    have hidx : index < list.length := by
      by_contra hge
      rw [List.get?_eq_none.2 (Nat.le_of_not_lt hge)] at hcur
      exact Option.noConfusion hcur
    have hlen0 : ¬ list.length = 0 := by omega
    have hcm : targetStr cur dir ∈ list.map (fun r => targetStr r dir) :=
      List.mem_map_of_mem _ (List.get?_mem hcur)
    have hval : validIdx
        (some (jsIndexOf (list.map (fun r => targetStr r dir)) (targetStr cur dir)))
        (list.map (fun r => targetStr r dir)).length = true := by
      simp only [validIdx, jsIndexOf, if_pos hcm, Bool.and_eq_true, decide_eq_true_eq]
      refine ⟨Int.natCast_nonneg _, ?_⟩
      exact_mod_cast List.indexOf_lt_length.2 hcm
    have hopt : qcmOptions ρ₁ ρ₂ list index dir
        = shuffle ρ₂ (targetStr cur dir ::
            pickN ρ₁ (list.map (fun r => targetStr r dir)) 3
              (some (jsIndexOf (list.map (fun r => targetStr r dir))
                (targetStr cur dir)))) := by
      unfold qcmOptions
      rw [hcur]
      simp [hlen0]
    have hdlen : (pickN ρ₁ (list.map (fun r => targetStr r dir)) 3
        (some (jsIndexOf (list.map (fun r => targetStr r dir))
          (targetStr cur dir)))).length
        = min 3 ((list.map (fun r => targetStr r dir)).length - 1) := by
      rw [pickN_length, hval]
      simp
    have hlen : (qcmOptions ρ₁ ρ₂ list index dir).length
        = 1 + min 3 (list.length - 1) := by
      rw [hopt, (shuffle_perm ρ₂ _).length_eq, List.length_cons, hdlen,
        List.length_map]
      omega
    refine ⟨by omega, by omega, ?_⟩
    rw [hopt]
    exact ((shuffle_perm ρ₂ _).mem_iff).2 (List.mem_cons_self _ _)
  · intro hnone
    unfold qcmOptions
    rw [hnone]

/-- Witness for C7: the four-entry list of the repository's own self-test, and
the empty list. -/
theorem qcmOptions_spec_witness :
    (1 ≤ (qcmOptions (fun _ => 0) (fun _ => 0)
        [⟨"cat", "chat", ""⟩, ⟨"dog", "chien", ""⟩, ⟨"bird", "oiseau", ""⟩,
          ⟨"fish", "poisson", ""⟩] 0 Direction.frEn).length
      ∧ (qcmOptions (fun _ => 0) (fun _ => 0)
          [⟨"cat", "chat", ""⟩, ⟨"dog", "chien", ""⟩, ⟨"bird", "oiseau", ""⟩,
            ⟨"fish", "poisson", ""⟩] 0 Direction.frEn).length ≤ 4
      ∧ "cat" ∈ qcmOptions (fun _ => 0) (fun _ => 0)
          [⟨"cat", "chat", ""⟩, ⟨"dog", "chien", ""⟩, ⟨"bird", "oiseau", ""⟩,
            ⟨"fish", "poisson", ""⟩] 0 Direction.frEn)
    ∧ qcmOptions (fun _ => 0) (fun _ => 0) [] 0 Direction.frEn = [] := by
  constructor
  · exact (qcmOptions_spec (fun _ => 0) (fun _ => 0)
      [⟨"cat", "chat", ""⟩, ⟨"dog", "chien", ""⟩, ⟨"bird", "oiseau", ""⟩,
        ⟨"fish", "poisson", ""⟩] 0 Direction.frEn).1 ⟨"cat", "chat", ""⟩ rfl
  · exact (qcmOptions_spec (fun _ => 0) (fun _ => 0) [] 0 Direction.frEn).2 rfl

/-! ## Entry normalizer -/

/-- **C5.** `normalizeRow` rejects exactly when both the trimmed `EN` and the
trimmed `FR` are empty; an accepted entry carries the trimmed values
(`EG` included, empty or not); a missing key defaults to the empty string;
and any header key that trim-uppercases to `"EN"` is stored under the
canonical key `"EN"`. -/
theorem normalizeRow_spec (row : RawRow) :
    (normalizeRow row = none ↔
        jsTrim (lookupKey (normalizeKeys row) "EN") = ""
        ∧ jsTrim (lookupKey (normalizeKeys row) "FR") = "")
    ∧ (∀ e, normalizeRow row = some e →
        e.EN = jsTrim (lookupKey (normalizeKeys row) "EN")
        ∧ e.FR = jsTrim (lookupKey (normalizeKeys row) "FR")
        ∧ e.EG = jsTrim (lookupKey (normalizeKeys row) "EG"))
    ∧ (∀ k, (normalizeKeys row).find? (fun kv => kv.1 == k) = none →
        lookupKey (normalizeKeys row) k = "")
    ∧ (∀ k v, jsToUpper (jsTrim k) = "EN" → normalizeKeys [(k, v)] = [("EN", v)]) := by
  refine ⟨?_, ?_, ?_, ?_⟩
  · simp only [normalizeRow]
    split_ifs with h
    · simpa using h
    · simp [h]
  · intro e he
    simp only [normalizeRow] at he
    split_ifs at he with h
    rw [Option.some.injEq] at he
    subst he
    exact ⟨rfl, rfl, rfl⟩
  · intro k hfind
    simp [lookupKey, hfind]
  · intro k v h
    simp [normalizeKeys, objSet, h]

/-- Witness for C5: a record rejected for having only whitespace in both
language fields, the key `" eN "` normalized to `"EN"`, and an accepted
record carrying the trimmed value. -/
theorem normalizeRow_spec_witness :
    normalizeRow [("en", " "), ("FR", "")] = none
    ∧ normalizeKeys [(" eN ", "x")] = [("EN", "x")]
    ∧ (⟨"hello", "bonjour", ""⟩ : Vocab).EN
        = jsTrim (lookupKey (normalizeKeys [(" En ", " hello "), ("fr", "bonjour")]) "EN") := by
  refine ⟨?_, ?_, ?_⟩
  · exact (normalizeRow_spec [("en", " "), ("FR", "")]).1.mpr ⟨by decide, by decide⟩
  · exact (normalizeRow_spec [(" eN ", "x")]).2.2.2 " eN " "x" (by decide)
  · exact ((normalizeRow_spec [(" En ", " hello "), ("fr", "bonjour")]).2.1
      ⟨"hello", "bonjour", ""⟩ (by decide)).1

/-! ## Scoring -/

/-- **C1.** One answer submission (`nextCard` with a boolean verdict, the
single scoring entry point of all three modes): `total` increases by one,
`good` increases by one exactly on a correct verdict, the streak increments
on a correct verdict and resets to zero otherwise, and the best streak
becomes the maximum of its previous value and the new streak. -/
theorem submit_scoring (s : AppState) (c : Bool) :
    (nextCardNow c s).score.total = s.score.total + 1
    ∧ (nextCardNow c s).score.good = s.score.good + (if c then 1 else 0)
    ∧ (nextCardNow c s).currentStreak = (if c then s.currentStreak + 1 else 0)
    ∧ (nextCardNow c s).bestStreak = max s.bestStreak ((nextCardNow c s).currentStreak) :=
  ⟨rfl, rfl, rfl, rfl⟩

/-! ## Writing-mode verdict -/

/-- **C9.** In writing mode the submission verdict is decided by
case-insensitive, whitespace-trimmed string equality between the typed text
and the target field — the submission is exactly `nextCard` on that equality
test, the Boolean test holds iff the trimmed-lowercased strings are equal,
and `good` increments exactly when they are equal. -/
theorem writing_verdict (s : AppState) (cur : Vocab)
    (h : currentEntry s = some cur) :
    handleAnswerSubmit s
        = nextCardNow
            (jsToLower (jsTrim s.answer) == jsToLower (jsTrim (targetStr cur s.direction))) s
    ∧ ((jsToLower (jsTrim s.answer) == jsToLower (jsTrim (targetStr cur s.direction))) = true
        ↔ jsToLower (jsTrim s.answer) = jsToLower (jsTrim (targetStr cur s.direction)))
    ∧ (handleAnswerSubmit s).score.good
        = s.score.good
          + (if jsToLower (jsTrim s.answer) = jsToLower (jsTrim (targetStr cur s.direction))
              then 1 else 0) := by
  have h1 : handleAnswerSubmit s
      = nextCardNow
          (jsToLower (jsTrim s.answer) == jsToLower (jsTrim (targetStr cur s.direction))) s := by
    unfold handleAnswerSubmit
    rw [h]
  refine ⟨h1, beq_iff_eq, ?_⟩
  rw [h1]
  show s.score.good + (if (jsToLower (jsTrim s.answer)
      == jsToLower (jsTrim (targetStr cur s.direction))) then 1 else 0) = _
  by_cases he : jsToLower (jsTrim s.answer) = jsToLower (jsTrim (targetStr cur s.direction))
  · simp [he]
  · simp [he]

/-- Witness for C9: a typed answer `" CaT "` against target `"cat"` counts as
correct (spec example scenario 1 family). -/
theorem writing_verdict_witness :
    (handleAnswerSubmit
        { mkInit Mode.writing Direction.frEn false 0 with
            list := [⟨"cat", "chat", ""⟩], answer := " CaT " }).score.good
      = ({ mkInit Mode.writing Direction.frEn false 0 with
            list := [⟨"cat", "chat", ""⟩], answer := " CaT " } : AppState).score.good
        + (if jsToLower (jsTrim " CaT ")
              = jsToLower (jsTrim (targetStr ⟨"cat", "chat", ""⟩ Direction.frEn))
            then 1 else 0) :=
  (writing_verdict
    { mkInit Mode.writing Direction.frEn false 0 with
        list := [⟨"cat", "chat", ""⟩], answer := " CaT " }
    ⟨"cat", "chat", ""⟩ (by decide)).2.2

/-! ## Derived percentages -/

/-- **C10.** Both derived percentages are total: accuracy is `0` whenever
`score.total` is `0`, and progress is `0` whenever the working list is empty
— the division is guarded and never evaluated on zero. -/
theorem derived_pct_guarded (s : AppState) :
    (s.score.total = 0 → accuracyPct s = 0)
    ∧ (s.list.length = 0 → progressPct s = 0) := by
  constructor
  · intro h
    simp [accuracyPct, h]
  · intro h
    simp [progressPct, h]

/-- Witness for C10: the pristine initial state has zero score and an empty
working list, and both percentages evaluate to `0`. -/
theorem derived_pct_guarded_witness :
    accuracyPct (mkInit Mode.flashcards Direction.frEn true 0) = 0
    ∧ progressPct (mkInit Mode.flashcards Direction.frEn true 0) = 0 :=
  ⟨(derived_pct_guarded (mkInit Mode.flashcards Direction.frEn true 0)).1 rfl,
   (derived_pct_guarded (mkInit Mode.flashcards Direction.frEn true 0)).2 rfl⟩

/-! ## QCM answered-lock -/

theorem qcmClick_locked (opt : String) (t : AppState) (cur : Vocab)
    (h : currentEntry t = some cur) (hq : t.qcmAnswered = true) :
    qcmClick opt t = t := by
  unfold qcmClick
  rw [h]
  simp [hq]

/-- **C3.** In QCM mode, once an option has been chosen for the current entry
the answered-lock is set, and any further choice for that entry before
advancement is a no-op: the state — in particular score, streak and
`wrongList` — is unchanged. -/
theorem qcm_answered_lock (s : AppState) (cur : Vocab) (opt₁ opt₂ : String)
    (hcur : currentEntry s = some cur) (hmode : s.mode = Mode.qcm)
    (hfree : s.qcmAnswered = false) :
    (qcmClick opt₁ s).qcmAnswered = true
    ∧ qcmClick opt₂ (qcmClick opt₁ s) = qcmClick opt₁ s
    ∧ (qcmClick opt₂ (qcmClick opt₁ s)).score = (qcmClick opt₁ s).score
    ∧ (qcmClick opt₂ (qcmClick opt₁ s)).currentStreak = (qcmClick opt₁ s).currentStreak
    ∧ (qcmClick opt₂ (qcmClick opt₁ s)).wrongRows = (qcmClick opt₁ s).wrongRows := by
  have h1 : qcmClick opt₁ s
      = nextCardNow (opt₁ == targetStr cur s.direction)
          { s with selectedQcmOption := some opt₁, qcmAnswered := true } := by
    unfold qcmClick
    rw [hcur]
    simp [hfree]
  have hq : (qcmClick opt₁ s).qcmAnswered = true := by
    rw [h1]
    simp [nextCardNow, hmode]
  have hcur1 : currentEntry (qcmClick opt₁ s) = some cur := by
    rw [h1]
    exact hcur
  have h2 : qcmClick opt₂ (qcmClick opt₁ s) = qcmClick opt₁ s :=
    qcmClick_locked opt₂ _ cur hcur1 hq
  exact ⟨hq, h2, by rw [h2], by rw [h2], by rw [h2]⟩

/-- Witness for C3: a one-entry QCM session; after choosing `"cat"` the lock
is set and choosing `"dog"` is a no-op. -/
theorem qcm_answered_lock_witness :
    (qcmClick "cat"
        { mkInit Mode.qcm Direction.frEn false 0 with
            list := [⟨"cat", "chat", ""⟩] }).qcmAnswered = true
    ∧ qcmClick "dog" (qcmClick "cat"
        { mkInit Mode.qcm Direction.frEn false 0 with
            list := [⟨"cat", "chat", ""⟩] })
      = qcmClick "cat"
          { mkInit Mode.qcm Direction.frEn false 0 with
              list := [⟨"cat", "chat", ""⟩] } := by
  have h := qcm_answered_lock
    { mkInit Mode.qcm Direction.frEn false 0 with list := [⟨"cat", "chat", ""⟩] }
    ⟨"cat", "chat", ""⟩ "cat" "dog" (by decide) rfl rfl
  exact ⟨h.1, h.2.1⟩

/-! ## Score/streak invariant -/

/-- The two safety inequalities of the scoring state. -/
def ScoreStreakInv (s : AppState) : Prop :=
  s.score.good ≤ s.score.total ∧ s.currentStreak ≤ s.bestStreak

theorem inv_nextCardNow (c : Bool) (s : AppState) (h : ScoreStreakInv s) :
    ScoreStreakInv (nextCardNow c s) := by
  obtain ⟨h1, h2⟩ := h
  constructor
  · show s.score.good + (if c then 1 else 0) ≤ s.score.total + 1
    split <;> omega
  · exact le_max_right _ _

theorem inv_hardReset (s : AppState) : ScoreStreakInv (hardResetProgress s) :=
  ⟨Nat.le_refl 0, Nat.zero_le _⟩

theorem inv_applyOp (op : Op) (s : AppState) (h : ScoreStreakInv s) :
    ScoreStreakInv (applyOp op s) := by
  cases op with
  | submit c => exact inv_nextCardNow c s h
  | advance => exact h
  | jump i => exact h
  | reset => exact inv_hardReset s
  | importOp entries ρ => exact inv_hardReset _
  | fullScope ρ => exact inv_hardReset _
  | wrongScope ρ =>
    show ScoreStreakInv (selectWrong ρ s)
    unfold selectWrong
    split
    · exact inv_hardReset _
    · exact h
  | shuffleToggle ρ => exact h
  | modeSet m => exact inv_hardReset _
  | directionSet d => exact inv_hardReset _
  | answerSet t => exact h
  | reveal => exact h
  | writeSubmit =>
    show ScoreStreakInv (handleAnswerSubmit s)
    unfold handleAnswerSubmit
    cases currentEntry s with
    | none => exact h
    | some cur => exact inv_nextCardNow _ s h
  | qcmChoose opt =>
    show ScoreStreakInv (qcmClick opt s)
    unfold qcmClick
    split
    · exact h
    · split
      · exact h
      · exact inv_nextCardNow _ _ ⟨h.1, h.2⟩
  | remoteBest b =>
    show ScoreStreakInv (mergeRemoteBest b s)
    unfold mergeRemoteBest
    split
    · next hb => exact ⟨h.1, Nat.le_trans h.2 (Nat.le_of_lt hb)⟩
    · exact h

theorem inv_applyOps (ops : List Op) (s : AppState) (h : ScoreStreakInv s) :
    ScoreStreakInv (applyOps ops s) := by
  induction ops generalizing s with
  | nil => exact h
  | cons op rest ih => exact ih (applyOp op s) (inv_applyOp op s h)

/-- **C4.** For every sequence of operations (answer submissions in any mode,
advancement, navigation, resets, imports, scope/mode/direction/shuffle
changes, remote best-streak merges) from any initial state,
`score.good ≤ score.total` and `currentStreak ≤ bestStreak`. -/
theorem score_streak_invariant (ops : List Op) (m : Mode) (d : Direction)
    (sh : Bool) (b : Nat) :
    (applyOps ops (mkInit m d sh b)).score.good
        ≤ (applyOps ops (mkInit m d sh b)).score.total
    ∧ (applyOps ops (mkInit m d sh b)).currentStreak
        ≤ (applyOps ops (mkInit m d sh b)).bestStreak :=
  inv_applyOps ops (mkInit m d sh b) ⟨Nat.le_refl 0, Nat.zero_le b⟩

/-! ## Mistake list -/

theorem insertWrong_key_mem (wr : List Vocab) (cur : Vocab) :
    wkey cur ∈ (insertWrong wr cur).map wkey := by
  unfold insertWrong
  split
  · next hany =>
    rw [List.any_eq_true] at hany
    obtain ⟨v, hv, he⟩ := hany
    rw [beq_iff_eq] at he
    rw [← he]
    exact List.mem_map_of_mem _ hv
  · rw [List.map_append]
    exact List.mem_append_right _ (by simp)

theorem insertWrong_sub (wr : List Vocab) (cur v : Vocab) (h : v ∈ wr) :
    v ∈ insertWrong wr cur := by
  unfold insertWrong
  split
  · exact h
  · exact List.mem_append_left _ h

theorem insertWrong_nodup (wr : List Vocab) (cur : Vocab)
    (h : (wr.map wkey).Nodup) : ((insertWrong wr cur).map wkey).Nodup := by
  unfold insertWrong
  split
  · exact h
  · next hany =>
    rw [List.map_append, List.nodup_append]
    refine ⟨h, by simp, ?_⟩
    intro x hx hx2
    simp only [List.map_cons, List.map_nil, List.mem_singleton] at hx2
    subst hx2
    rw [List.mem_map] at hx
    obtain ⟨v, hv, he⟩ := hx
    rw [List.any_eq_true] at hany
    exact hany ⟨v, hv, beq_iff_eq.2 he⟩

theorem nextCardNow_wrong_key (s : AppState) (cur : Vocab)
    (h : currentEntry s = some cur) :
    wkey cur ∈ ((nextCardNow false s).wrongRows.map wkey) := by
  show wkey cur ∈ ((match currentEntry s with
    | some c => insertWrong s.wrongRows c
    | none => s.wrongRows).map wkey)
  rw [h]
  exact insertWrong_key_mem _ _

theorem nextCardNow_wrong_sub (c : Bool) (s : AppState) (v : Vocab)
    (h : v ∈ s.wrongRows) : v ∈ (nextCardNow c s).wrongRows := by
  show v ∈ (if c then s.wrongRows else
    match currentEntry s with
    | some cur => insertWrong s.wrongRows cur
    | none => s.wrongRows)
  split
  · exact h
  · split
    · exact insertWrong_sub _ _ _ h
    · exact h

theorem nextCardNow_wrong_nodup (c : Bool) (s : AppState)
    (h : (s.wrongRows.map wkey).Nodup) :
    ((nextCardNow c s).wrongRows.map wkey).Nodup := by
  show ((if c then s.wrongRows else
    match currentEntry s with
    | some cur => insertWrong s.wrongRows cur
    | none => s.wrongRows).map wkey).Nodup
  split
  · exact h
  · split
    · exact insertWrong_nodup _ _ h
    · exact h

theorem applyOp_wrong_nodup (op : Op) (s : AppState)
    (h : (s.wrongRows.map wkey).Nodup) :
    ((applyOp op s).wrongRows.map wkey).Nodup := by
  cases op with
  | submit c => exact nextCardNow_wrong_nodup c s h
  | advance => exact h
  | jump i => exact h
  | reset => exact h
  | importOp entries ρ => exact List.Pairwise.nil
  | fullScope ρ => exact h
  | wrongScope ρ =>
    show ((selectWrong ρ s).wrongRows.map wkey).Nodup
    unfold selectWrong
    split
    · exact h
    · exact h
  | shuffleToggle ρ => exact h
  | modeSet m => exact h
  | directionSet d => exact h
  | answerSet t => exact h
  | reveal => exact h
  | writeSubmit =>
    show ((handleAnswerSubmit s).wrongRows.map wkey).Nodup
    unfold handleAnswerSubmit
    split
    · exact h
    · exact nextCardNow_wrong_nodup _ s h
  | qcmChoose opt =>
    show ((qcmClick opt s).wrongRows.map wkey).Nodup
    unfold qcmClick
    split
    · exact h
    · split
      · exact h
      · exact nextCardNow_wrong_nodup _ { s with selectedQcmOption := _, qcmAnswered := true } h
  | remoteBest b =>
    show ((mergeRemoteBest b s).wrongRows.map wkey).Nodup
    unfold mergeRemoteBest
    split
    · exact h
    · exact h

theorem applyOps_wrong_nodup (ops : List Op) (s : AppState)
    (h : (s.wrongRows.map wkey).Nodup) :
    ((applyOps ops s).wrongRows.map wkey).Nodup := by
  induction ops generalizing s with
  | nil => exact h
  | cons op rest ih => exact ih (applyOp op s) (applyOp_wrong_nodup op s h)

/-- **C2 (counterexample).** After importing `("a__b", "c")` and `("a", "b__c")`
and answering the first one incorrectly, answering the second one incorrectly
does NOT put it into `wrongList`: its concatenated key `"a__b__c"` collides
with the first entry's key, so no entry with the pair `("a", "b__c")` is ever
present — refuting membership-by-(EN,FR) after an incorrect submission. -/
theorem wrongList_pair_membership_cex :
    currentEntry (applyOps
        [Op.importOp [⟨"a__b", "c", ""⟩, ⟨"a", "b__c", ""⟩] (fun _ => 0),
          Op.submit false, Op.advance]
        (mkInit Mode.flashcards Direction.frEn false 0))
      = some ⟨"a", "b__c", ""⟩
    ∧ ¬ (∃ v ∈ (nextCardNow false (applyOps
          [Op.importOp [⟨"a__b", "c", ""⟩, ⟨"a", "b__c", ""⟩] (fun _ => 0),
            Op.submit false, Op.advance]
          (mkInit Mode.flashcards Direction.frEn false 0))).wrongRows,
        v.EN = "a" ∧ v.FR = "b__c") := by
  decide

/-- **C2 (amended).** Mistake-list membership and deduplication are by the
concatenated key `EN ++ "__" ++ FR`, not by the `(EN, FR)` pair: after every
incorrect submission the current entry's key is present in `wrongList`'s
keys; in every reachable state the keys are pairwise distinct (hence no two
entries share the same `(EN, FR)` pair); and no operation other than a
new import removes an entry from `wrongList`.  Two distinct entries answered
incorrectly in the same import are both present whenever their concatenated
keys differ. -/
theorem wrongList_key_behavior :
    (∀ s cur, currentEntry s = some cur →
        wkey cur ∈ ((nextCardNow false s).wrongRows.map wkey))
    ∧ (∀ ops m d sh b,
        ((applyOps ops (mkInit m d sh b)).wrongRows.map wkey).Nodup)
    ∧ (∀ ops m d sh b u w,
        u ∈ (applyOps ops (mkInit m d sh b)).wrongRows →
        w ∈ (applyOps ops (mkInit m d sh b)).wrongRows →
        u.EN = w.EN → u.FR = w.FR → u = w)
    ∧ (∀ op s, (∀ entries ρ, op ≠ Op.importOp entries ρ) →
        ∀ v, v ∈ s.wrongRows → v ∈ (applyOp op s).wrongRows) := by
  refine ⟨fun s cur h => nextCardNow_wrong_key s cur h, ?_, ?_, ?_⟩
  · intro ops m d sh b
    exact applyOps_wrong_nodup ops (mkInit m d sh b) List.Pairwise.nil
  · intro ops m d sh b u w hu hw hEN hFR
    refine List.inj_on_of_nodup_map
      (applyOps_wrong_nodup ops (mkInit m d sh b) List.Pairwise.nil) hu hw ?_
    unfold wkey
    rw [hEN, hFR]
  · intro op s hni v hv
    cases op with
    | submit c => exact nextCardNow_wrong_sub c s v hv
    | advance => exact hv
    | jump i => exact hv
    | reset => exact hv
    | importOp entries ρ => exact absurd rfl (hni entries ρ)
    | fullScope ρ => exact hv
    | wrongScope ρ =>
      show v ∈ (selectWrong ρ s).wrongRows
      unfold selectWrong
      split
      · exact hv
      · exact hv
    | shuffleToggle ρ => exact hv
    | modeSet m => exact hv
    | directionSet d => exact hv
    | answerSet t => exact hv
    | reveal => exact hv
    | writeSubmit =>
      show v ∈ (handleAnswerSubmit s).wrongRows
      unfold handleAnswerSubmit
      split
      · exact hv
      · exact nextCardNow_wrong_sub _ s v hv
    | qcmChoose opt =>
      show v ∈ (qcmClick opt s).wrongRows
      unfold qcmClick
      split
      · exact hv
      · split
        · exact hv
        · exact nextCardNow_wrong_sub _ { s with selectedQcmOption := _, qcmAnswered := true } v hv
    | remoteBest b =>
      show v ∈ (mergeRemoteBest b s).wrongRows
      unfold mergeRemoteBest
      split
      · exact hv
      · exact hv

/-- Witness for the amended C2: a concrete incorrect submission inserts the
key; a concrete interaction keeps the keys duplicate-free; and `advance`
(a non-import operation) keeps a present mistake present. -/
theorem wrongList_key_behavior_witness :
    wkey ⟨"cat", "chat", ""⟩
        ∈ ((nextCardNow false
            { mkInit Mode.flashcards Direction.frEn false 0 with
                list := [⟨"cat", "chat", ""⟩] }).wrongRows.map wkey)
    ∧ ((applyOps
          [Op.importOp [⟨"cat", "chat", ""⟩, ⟨"dog", "chien", ""⟩] (fun _ => 0),
            Op.submit false, Op.submit false]
          (mkInit Mode.flashcards Direction.frEn false 0)).wrongRows.map wkey).Nodup
    ∧ (⟨"cat", "chat", ""⟩ : Vocab) ∈ (applyOp Op.advance
        { mkInit Mode.flashcards Direction.frEn false 0 with
            wrongRows := [⟨"cat", "chat", ""⟩] }).wrongRows := by
  refine ⟨?_, ?_, ?_⟩
  · exact wrongList_key_behavior.1
      { mkInit Mode.flashcards Direction.frEn false 0 with
          list := [⟨"cat", "chat", ""⟩] } ⟨"cat", "chat", ""⟩ (by decide)
  · exact wrongList_key_behavior.2.1
      [Op.importOp [⟨"cat", "chat", ""⟩, ⟨"dog", "chien", ""⟩] (fun _ => 0),
        Op.submit false, Op.submit false] Mode.flashcards Direction.frEn false 0
  · exact wrongList_key_behavior.2.2.2 Op.advance
      { mkInit Mode.flashcards Direction.frEn false 0 with
          wrongRows := [⟨"cat", "chat", ""⟩] }
      (fun entries ρ h => Op.noConfusion h) ⟨"cat", "chat", ""⟩ (by decide)

end LudyEnglish
